import Mathlib

/-!
Verification of the Solidity call-graph resolver `function_graph.py`.

The development shallowly embeds the data model (`Function`, `Call`, `Edge`,
`Contract`), the C3-style linearization (`c3`, `c3_merge`), the per-call
resolution logic of `walk_call` (`resolveCall`, `find_base`) and the worklist
traversal itself (`walkAux`, `walk_call`), and proves the behavioural
properties stated in the specification against these definitions.

Python dictionaries are embedded as association lists with first-match lookup
(`dictGet`); all models constructed here have distinct keys, so this agrees
with dictionary semantics.  Python exceptions (`KeyError`, the `TypeError`
raised by `c3_merge`) are embedded as `Except.error` / `Option.none`.
Unbounded recursion (the Python functions `c3` and the growing worklist loop
of `walk_call`) is embedded with an explicit fuel parameter; theorems below
show the fuel is irrelevant whenever the Python program would terminate.
-/

set_option maxRecDepth 8192

namespace FunctionGraph

/-- `class Function` of `function_graph.py`: a function identity consisting of
`name`, `params` (the parameter count) and `type` (the kind string, one of
`"Function"`, `"Modifier"`, `"Event"`; the constructor default is
`"Function"`). -/
structure Function where
  name : String
  params : Nat
  type : String := "Function"
deriving DecidableEq

/-- `Function.__eq__`: two functions are equal iff `name`, `params` and `type`
all match (a composite identity). -/
def Function.eqSrc (a b : Function) : Bool :=
  a.name == b.name && a.params == b.params && a.type == b.type

/-- The value passed to the builtin `hash` by `Function.__hash__`, which is
`hash(self.name)`: only the name participates in the hash. -/
def Function.hashKey (f : Function) : String :=
  f.name

/-- `class Call`: an (un)resolved invocation.  `contract` is a concrete
contract name or one of the sentinels `"this"` / `"super"`; `context` is the
contract whose declarations govern resolution.  The Python constructor
defaults `context` to `contract` when no context is passed. -/
structure Call where
  contract : String
  function : Function
  context : String
deriving DecidableEq

/-- `Call.__eq__`: contract and function only; `context` is ignored. -/
def Call.eqSrc (a b : Call) : Bool :=
  a.contract == b.contract && Function.eqSrc a.function b.function

/-- Python `call in list`, which tests membership with `Call.__eq__`. -/
def memCall (c : Call) (l : List Call) : Bool :=
  l.any (fun x => Call.eqSrc x c)

/-- `class Edge`: one resolved invocation, caller and callee. -/
structure Edge where
  caller : Call
  callee : Call
deriving DecidableEq

/-- `Edge.__eq__`: both endpoints compared with `Call.__eq__`. -/
def Edge.eqSrc (a b : Edge) : Bool :=
  Call.eqSrc a.caller b.caller && Call.eqSrc a.callee b.callee

/-- `class Contract`: registry entry built by `parse_contracts` /
`parse_node`.  `base_contracts` is the declared base list (already reversed,
as stored by the model builder), `state_user_vars` maps a state-variable name
to its declared user-defined type name, `usingfors` maps a type name to the
attached library name, `functions` maps a function identity to its extracted
call list, and `linearization` is the cached `c3` result. -/
structure Contract where
  name : String
  base_contracts : List String
  state_user_vars : List (String × String)
  usingfors : List (String × String)
  functions : List (Function × List Call)
  linearization : List String
deriving DecidableEq

/-- The `contracts` registry: a Python dict from contract name to `Contract`. -/
abbrev Model := List (String × Contract)

/-- Python dict lookup `d[k]` (as an `Option`): association list with
first-match semantics.  All models used here have distinct keys. -/
def dictGet {κ α : Type} [DecidableEq κ] : List (κ × α) → κ → Option α
  | [], _ => none
  | (k, v) :: rest, key => if k = key then some v else dictGet rest key

/-- `call.function in contract.functions` (dict key membership, composite
equality). -/
def hasFun (c : Contract) (f : Function) : Bool :=
  (dictGet c.functions f).isSome

/-- `call.contract in contract.state_user_vars`. -/
def hasVar (c : Contract) (v : String) : Bool :=
  (dictGet c.state_user_vars v).isSome

/-- `contract_to in contract.usingfors`. -/
def hasUsing (c : Contract) (t : String) : Bool :=
  (dictGet c.usingfors t).isSome

/-! ### C3 linearization (`c3`, `c3_merge`) -/

/-- The candidate test of `c3_merge`: `all(candidate not in tail for _, *tail
in lst)`. -/
def okCand (lst : List (List String)) (c : String) : Bool :=
  lst.all (fun l => !(l.tail.contains c))

/-- One list of the comprehension `[tail if head == candidate else [head,
*tail] for head, *tail in lst]`. -/
def mergeDrop (c : String) (l : List String) : List String :=
  if l.head? == some c then l.tail else l

/-- The argument of the recursive call of `c3_merge`: the candidate removed
from every head, empty lists dropped (`[l for l in rec if l]`). -/
def mergeRest (c : String) (lst : List (List String)) : List (List String) :=
  (lst.map (mergeDrop c)).filter (fun l => !l.isEmpty)

/-- Total number of elements across the merge input lists; this strictly
decreases at every `c3_merge` step, so it bounds the recursion depth. -/
def sumLen (lst : List (List String)) : Nat :=
  (lst.map List.length).sum

/-- `c3_merge` with an explicit recursion-depth bound (structural on `fuel`):
if every list is empty the merge is `[]`; otherwise the first head that
occurs in no tail is selected, removed everywhere, and prepended; if no head
qualifies the merge fails (`raise TypeError("Couldn't linearize contract")`,
embedded as `none`). -/
def c3_mergeF : Nat → List (List String) → Option (List String)
  | fuel, lst =>
    if lst.all List.isEmpty then some []
    else
      match (lst.filterMap List.head?).find? (okCand lst) with
      | none => none
      | some c =>
        match fuel with
        | 0 => none
        | n + 1 =>
          match c3_mergeF n (mergeRest c lst) with
          | none => none
          | some out => some (c :: out)

/-- `c3_merge` of `function_graph.py`.  `sumLen lst` steps always suffice
(each step removes at least one element), so this computes exactly the Python
recursion; `c3_merge_unfold` below proves the defining recurrence. -/
def c3_merge (lst : List (List String)) : Option (List String) :=
  c3_mergeF (sumLen lst) lst

/-- Sequences a list of `Option`s (all-or-nothing), used for the recursive
`c3` calls on the base contracts. -/
def listOptAll {α : Type} : List (Option α) → Option (List α)
  | [] => some []
  | none :: _ => none
  | some a :: rest =>
    match listOptAll rest with
    | none => none
    | some l => some (a :: l)

/-- The body of `c3`: `[contract]` when the contract is unknown or has no
bases, else `[contract] + c3_merge([c3(b) for b in bases] + [bases])`, with
`recur` standing for the recursive call. -/
def c3Step (m : Model) (recur : String → Option (List String))
    (contract : String) : Option (List String) :=
  match dictGet m contract with
  | none => some [contract]
  | some ct =>
    if ct.base_contracts.isEmpty then some [contract]
    else
      match listOptAll (ct.base_contracts.map recur) with
      | none => none
      | some ls =>
        match c3_merge (ls ++ [ct.base_contracts]) with
        | none => none
        | some merged => some (contract :: merged)

/-- `c3` of `function_graph.py`, with a fuel bound on the recursion depth
through base contracts (the Python recursion is unbounded and diverges on
cyclic inheritance; any fuel at least the inheritance depth returns the
Python value, and `none` embeds non-termination / failure). -/
def c3 (m : Model) : Nat → String → Option (List String)
  | 0 => fun contract =>
    match dictGet m contract with
    | none => some [contract]
    | some ct => if ct.base_contracts.isEmpty then some [contract] else none
  | n + 1 => fun contract => c3Step m (c3 m n) contract

/-- The set (as a list) consisting of a contract together with its transitive
base contracts, mirroring the recursion structure of `c3` (same fuel
discipline; names without a registry entry contribute only themselves). -/
def transBases (m : Model) : Nat → String → List String
  | 0 => fun contract => [contract]
  | n + 1 => fun contract =>
    match dictGet m contract with
    | none => [contract]
    | some ct =>
      if ct.base_contracts.isEmpty then [contract]
      else contract :: ct.base_contracts.flatMap (fun b => transBases m n b)

/-- The direct-base relation of the registry: `BaseStep m a b` holds when `a`
is a modeled contract declaring `b` among its bases.  Used to express
inheritance cycles, on which `c3` fails at every fuel. -/
def BaseStep (m : Model) (a b : String) : Prop :=
  ∃ ct, dictGet m a = some ct ∧ b ∈ ct.base_contracts

/-- The failure condition of one `c3_merge` step, in the specification's
words: some input list is still non-empty, but no candidate head is absent
from the tail of every input list. -/
def mergeStuck (lst : List (List String)) : Prop :=
  ¬ lst.all List.isEmpty = true ∧
    ∀ c ∈ lst.filterMap List.head?, ∃ l ∈ lst, c ∈ l.tail

/-- The states the `c3_merge` recursion passes through: reflexive closure of
one merge step (candidate selected and removed). -/
inductive MergeReaches : List (List String) → List (List String) → Prop where
  | refl (lst : List (List String)) : MergeReaches lst lst
  | step (lst lst' : List (List String)) (c : String)
      (hne : ¬ lst.all List.isEmpty = true)
      (hc : (lst.filterMap List.head?).find? (okCand lst) = some c)
      (h : MergeReaches (mergeRest c lst) lst') : MergeReaches lst lst'

/-! ### Call resolution (`walk_call` body, `find_base`) -/

/-- `find_base`: scan `contracts[contract_name].linearization` left to right
and return the first base name that is a registry key and satisfies the
predicate (which receives the base's name and its `Contract`; the name stands
in for Python object identity, since the registry maps each name to one
object).  A missing `contract_name` is the Python `KeyError`. -/
def find_base (m : Model) (contract_name : String)
    (p : String → Contract → Bool) : Except Unit (Option String) :=
  match dictGet m contract_name with
  | none => Except.error ()
  | some ct =>
    Except.ok (ct.linearization.find? (fun base_name =>
      match dictGet m base_name with
      | none => false
      | some base => p base_name base))

/-- Resolution of one raw `call` recorded against the dequeued `callee`
(the loop body of `walk_call`, lines 166–205):
internal (`"this"`) and `super` calls search a linearization with
`find_base`; otherwise a receiver naming a linearized ancestor is a direct
base call; otherwise the receiver is treated as a state variable, possibly
redirected through a using-for attachment.  `Except.error` embeds the
`KeyError` raised when a needed registry entry is missing (in the using-for
branch, `find_base` returning `None` makes Python evaluate
`contracts[None]`).  Note that in the using-for branch the source also binds
`lib_function = Function(call.function.name, call.function.params + 1)` and
rebinds `search_function`, but neither binding is used afterwards: the
returned `Call` carries the original `call.function`. -/
def resolveCall (m : Model) (callee : Call) (call : Call) :
    Except Unit (Option Call) :=
  if call.contract = "this" ∨ call.contract = "super" then
    match
      (if call.contract = "super" then
        find_base m callee.contract
          (fun n c => (!(n == callee.contract)) && hasFun c call.function)
      else
        find_base m callee.context (fun _ c => hasFun c call.function)) with
    | Except.error _ => Except.error ()
    | Except.ok none => Except.ok none
    | Except.ok (some contract_to) =>
      Except.ok (some (Call.mk contract_to call.function callee.context))
  else
    match dictGet m callee.contract with
    | none => Except.error ()
    | some calleeCt =>
      match
        (if call.contract ∈ calleeCt.linearization then
          find_base m call.contract (fun _ c => hasFun c call.function)
        else Except.ok none) with
      | Except.error _ => Except.error ()
      | Except.ok (some base_name) =>
        Except.ok (some (Call.mk base_name call.function callee.context))
      | Except.ok none =>
        match find_base m callee.contract
            (fun _ c => hasVar c call.contract) with
        | Except.error _ => Except.error ()
        | Except.ok none => Except.ok none
        | Except.ok (some base_name) =>
          match dictGet m base_name with
          | none => Except.error ()
          | some baseCt =>
            match dictGet baseCt.state_user_vars call.contract with
            | none => Except.error ()
            | some contract_to =>
              if (dictGet m contract_to).isSome then
                Except.ok (some (Call.mk contract_to call.function base_name))
              else
                match find_base m base_name
                    (fun _ c => hasUsing c contract_to) with
                | Except.error _ => Except.error ()
                | Except.ok none => Except.error ()
                | Except.ok (some base_usingfor) =>
                  match dictGet m base_usingfor with
                  | none => Except.error ()
                  | some ufCt =>
                    match dictGet ufCt.usingfors contract_to with
                    | none => Except.error ()
                    | some libname =>
                      Except.ok
                        (some (Call.mk libname call.function base_name))

/-! ### Worklist traversal (`walk_call`) -/

/-- `set.add` on the node accumulator (membership by `Call.__eq__`; insertion
order kept so lists stay canonical). -/
def addNode (c : Call) (l : List Call) : List Call :=
  if memCall c l then l else l ++ [c]

/-- `set.add` on the edge accumulator (membership by `Edge.__eq__`). -/
def addEdge (e : Edge) (l : List Edge) : List Edge :=
  if l.any (fun x => Edge.eqSrc x e) then l else l ++ [e]

/-- The program's three possible traversal outcomes: the node and edge
accumulators (flattened; the Python `defaultdict(set)` buckets are recovered
by filtering on `call.contract` / `edge.caller.contract`, which is the bucket
key used at every insertion), an uncaught `KeyError`, or fuel exhaustion
(which, by `claim_C7`, never happens for sufficient fuel). -/
inductive WalkResult where
  | ok (nodes : List Call) (edges : List Edge)
  | keyError
  | outOfFuel
deriving DecidableEq

/-- The inner `for call in contracts[callee.contract].functions[...]` loop:
resolve each raw call, add an edge from `callee`, and append the target to
the worklist unless a call with the same contract and function is already
present. -/
def processCalls (m : Model) (callee : Call) :
    List Call → List Call → List Edge → Except Unit (List Call × List Edge)
  | [], calls, edges => Except.ok (calls, edges)
  | call :: rest, calls, edges =>
    match resolveCall m callee call with
    | Except.error _ => Except.error ()
    | Except.ok none => processCalls m callee rest calls edges
    | Except.ok (some call_to) =>
      processCalls m callee rest
        (if memCall call_to calls then calls else calls ++ [call_to])
        (addEdge (Edge.mk callee call_to) edges)

/-- The `for callee in calls` worklist loop of `walk_call`, iterating by
index `i` over the growing list `calls` (Python list iteration is by index,
and appends go to the end).  Each dequeued call is recorded as a node; calls
in the ignore list are not expanded; otherwise the callee's own contract's
function map is consulted (a missing key is the Python `KeyError`).  `fuel`
bounds the number of loop iterations. -/
def walkAux (m : Model) (ig : List Call) :
    Nat → Nat → List Call → List Call → List Edge → WalkResult
  | 0, i, calls, nodes, edges =>
    match calls[i]? with
    | none => WalkResult.ok nodes edges
    | some _ => WalkResult.outOfFuel
  | fuel + 1, i, calls, nodes, edges =>
    match calls[i]? with
    | none => WalkResult.ok nodes edges
    | some callee =>
      let nodes' := addNode callee nodes
      if memCall callee ig then
        walkAux m ig fuel (i + 1) calls nodes' edges
      else
        match dictGet m callee.contract with
        | none => WalkResult.keyError
        | some ct =>
          match dictGet ct.functions callee.function with
          | none => WalkResult.keyError
          | some raw =>
            match processCalls m callee raw calls edges with
            | Except.error _ => WalkResult.keyError
            | Except.ok (calls', edges') =>
              walkAux m ig fuel (i + 1) calls' nodes' edges'

/-- `walk_call(entry, ignore_list)`: worklist seeded with the entry call,
node set pre-seeded with the entry (line 160). -/
def walk_call (m : Model) (fuel : Nat) (entry : Call) (ignore_list : List Call) :
    WalkResult :=
  walkAux m ignore_list fuel 0 [entry] (addNode entry []) []

/-- The contract+function identity by which the traversal deduplicates calls
(`Call.__eq__` ignores `context`). -/
def pairKey (c : Call) : String × Function :=
  (c.contract, c.function)

/-- Every contract name a resolved target can carry: the entry's contract,
the registry keys, and every library name attached via using-for. -/
def univC (m : Model) (entry : Call) : List String :=
  entry.contract ::
    (m.map Prod.fst ++ m.flatMap (fun p => p.2.usingfors.map Prod.snd))

/-- Every function identity a resolved target can carry: the entry's
function and every function of a raw call recorded anywhere in the model. -/
def univF (m : Model) (entry : Call) : List Function :=
  entry.function ::
    m.flatMap (fun p => p.2.functions.flatMap (fun kv => kv.2.map Call.function))

/-- Sufficient fuel for `walk_call`: the number of distinct
(contract, function) pairs the traversal can ever enqueue. -/
def walkFuel (m : Model) (entry : Call) : Nat :=
  ((univC m entry).toFinset ×ˢ (univF m entry).toFinset).card

/-! ### Entry-point lookup (`__main__`, lines 295–304) -/

/-- The `__main__` candidate scan: all `(function, base)` pairs found by
walking the requested contract's linearization (skipping unmodeled bases)
and keeping plain functions with the requested name.  `walk_call` is then
started on the first candidate, paired with the *requested* contract name. -/
def entry_functions (m : Model) (contract_name : String) (fname : String) :
    List (Function × String) :=
  match dictGet m contract_name with
  | none => []
  | some ct =>
    (ct.linearization.flatMap (fun b =>
      match dictGet m b with
      | none => []
      | some bc => bc.functions.map (fun kv => (kv.1, b)))).filter
      (fun fb => fb.1.name == fname && fb.1.type == "Function")

/-! ### Concrete models used by the claims -/

/-- `foo()` -/
def fooFn : Function := Function.mk "foo" 0 "Function"

/-- `f()` -/
def fFn : Function := Function.mk "f" 0 "Function"

/-- `g()` -/
def gFn : Function := Function.mk "g" 0 "Function"

/-- `h()` -/
def hFn : Function := Function.mk "h" 0 "Function"

/-- `bar()` -/
def barFn : Function := Function.mk "bar" 0 "Function"

/-- `entry()` -/
def entryFn : Function := Function.mk "entry" 0 "Function"

/-- `super.foo()` as extracted (context defaults to the receiver text). -/
def superFoo : Call := Call.mk "super" fooFn "super"

/-- `this.g()` as extracted. -/
def thisG : Call := Call.mk "this" gFn "this"

/-- `this.h()` as extracted. -/
def thisH : Call := Call.mk "this" hFn "this"

/-- Chain `C → B → A`, every contract defining `foo`, `C.foo` calling
`super.foo()` (spec §8, super-dispatch test). -/
def chainA : Contract := Contract.mk "A" [] [] [] [(fooFn, [])] ["A"]

/-- Base `B` of the chain. -/
def chainB : Contract := Contract.mk "B" ["A"] [] [] [(fooFn, [])] ["B", "A"]

/-- Most-derived `C` of the chain. -/
def chainC : Contract :=
  Contract.mk "C" ["B"] [] [] [(fooFn, [superFoo])] ["C", "B", "A"]

/-- The chain registry. -/
def chainModel : Model := [("A", chainA), ("B", chainB), ("C", chainC)]

/-- `Base` defines `f` (whose body calls `this.g()`) and `g`. -/
def ctxBase : Contract :=
  Contract.mk "Base" [] [] [] [(fFn, [thisG]), (gFn, [])] ["Base"]

/-- `Derived is Base`, overriding `g` only. -/
def ctxDerived : Contract :=
  Contract.mk "Derived" ["Base"] [] [] [(gFn, [])] ["Derived", "Base"]

/-- Registry for the inherited-body internal-call scenario. -/
def contextModel : Model := [("Base", ctxBase), ("Derived", ctxDerived)]

/-- `B.bar()` as extracted from a body (context defaults to `"B"`). -/
def callBbar : Call := Call.mk "B" barFn "B"

/-- `B` defining `bar`. -/
def dirB : Contract := Contract.mk "B" [] [] [] [(barFn, [])] ["B"]

/-- `D is B`, with `entry` calling `B.bar()` directly. -/
def dirD : Contract :=
  Contract.mk "D" ["B"] [] [] [(entryFn, [callBbar])] ["D", "B"]

/-- Registry for the direct-base-call scenario. -/
def directModel : Model := [("B", dirB), ("D", dirD)]

/-- `f` with one argument, as called through the state variable `s`. -/
def sCallFn : Function := Function.mk "f" 1 "Function"

/-- The library's `f`, declared with the extra receiver parameter. -/
def libFn2 : Function := Function.mk "f" 2 "Function"

/-- `s.f(x)` as extracted. -/
def sCall : Call := Call.mk "s" sCallFn "s"

/-- `A` holding `S s`, declaring `using S for Lib`, with `entry` calling
`s.f(x)`.  `S` is a struct, not a modeled contract. -/
def ufA : Contract :=
  Contract.mk "A" [] [("s", "S")] [("S", "Lib")] [(entryFn, [sCall])] ["A"]

/-- The library, defining `f` with `1 + 1` parameters (value plus implicit
receiver). -/
def ufLib : Contract := Contract.mk "Lib" [] [] [] [(libFn2, [])] ["Lib"]

/-- Registry for the using-for scenario. -/
def usingForModel : Model := [("A", ufA), ("Lib", ufLib)]

/-- `A` with `f → g → h` internal call chain, used with `g` ignored. -/
def igA : Contract :=
  Contract.mk "A" [] [] [] [(fFn, [thisG]), (gFn, [thisH]), (hFn, [])] ["A"]

/-- Registry for the ignore-filter scenario. -/
def ignoreModel : Model := [("A", igA)]

/-- `Base` defining `foo`. -/
def ieBase : Contract := Contract.mk "Base" [] [] [] [(fooFn, [])] ["Base"]

/-- `Derived is Base`, not overriding `foo`. -/
def ieDerived : Contract :=
  Contract.mk "Derived" ["Base"] [] [] [] ["Derived", "Base"]

/-- Registry where the entry function is only inherited. -/
def inheritEntryModel : Model := [("Base", ieBase), ("Derived", ieDerived)]

/-- Diamond `D → B, C`; `B, C → A` (spec §8 determinism test). -/
def dmA : Contract := Contract.mk "A" [] [] [] [] ["A"]

/-- Diamond base `B`. -/
def dmB : Contract := Contract.mk "B" ["A"] [] [] [] ["B", "A"]

/-- Diamond base `C`. -/
def dmC : Contract := Contract.mk "C" ["A"] [] [] [] ["C", "A"]

/-- Diamond top `D`. -/
def dmD : Contract := Contract.mk "D" ["B", "C"] [] [] [] ["D", "B", "C", "A"]

/-- The diamond registry. -/
def diamondModel : Model :=
  [("A", dmA), ("B", dmB), ("C", dmC), ("D", dmD)]

/-- `X is B, C` (stored order) against `Y is C, B`: contradictory base
orders. -/
def cfB : Contract := Contract.mk "B" [] [] [] [] ["B"]

/-- Conflict participant `C`. -/
def cfC : Contract := Contract.mk "C" [] [] [] [] ["C"]

/-- `X` ordering `B` before `C`. -/
def cfX : Contract := Contract.mk "X" ["B", "C"] [] [] [] ["X", "B", "C"]

/-- `Y` ordering `C` before `B`. -/
def cfY : Contract := Contract.mk "Y" ["C", "B"] [] [] [] ["Y", "C", "B"]

/-- `Z is X, Y`: no consistent order exists. -/
def cfZ : Contract := Contract.mk "Z" ["X", "Y"] [] [] [] []

/-- The contradictory registry. -/
def conflictModel : Model :=
  [("B", cfB), ("C", cfC), ("X", cfX), ("Y", cfY), ("Z", cfZ)]

/-- `b` names a modeled contract that defines a function with identity `f`
(the search criterion every linearization scan of `walk_call` uses). -/
def definesFun (m : Model) (b : String) (f : Function) : Bool :=
  match dictGet m b with
  | none => false
  | some c => hasFun c f

/-! ## Bridging lemmas -/

theorem funEqSrc_iff (a b : Function) :
    Function.eqSrc a b = true ↔ a = b := by
  cases a; cases b
  simp [Function.eqSrc, and_assoc]

theorem callEqSrc_iff (a b : Call) :
    Call.eqSrc a b = true ↔
      a.contract = b.contract ∧ a.function = b.function := by
  simp [Call.eqSrc, funEqSrc_iff]

theorem memCall_iff (c : Call) (l : List Call) :
    memCall c l = true ↔ pairKey c ∈ l.map pairKey := by
  rw [memCall, List.any_eq_true]
  simp only [callEqSrc_iff, List.mem_map]
  constructor
  · rintro ⟨x, hx, h1, h2⟩
    exact ⟨x, hx, by simp [pairKey, h1, h2]⟩
  · rintro ⟨x, hx, hp⟩
    have h1 : x.contract = c.contract := congrArg Prod.fst hp
    have h2 : x.function = c.function := congrArg Prod.snd hp
    exact ⟨x, hx, h1, h2⟩

theorem dictGet_mem {κ α : Type} [DecidableEq κ] :
    ∀ (l : List (κ × α)) (k : κ) (v : α),
      dictGet l k = some v → (k, v) ∈ l := by
  intro l
  induction l with
  | nil => intro k v h; simp [dictGet] at h
  | cons p rest ih =>
    intro k v h
    obtain ⟨k', v'⟩ := p
    by_cases hk : k' = k
    · subst hk
      simp [dictGet] at h
      subst h
      exact List.mem_cons_self _ _
    · simp [dictGet, hk] at h
      exact List.mem_cons_of_mem _ (ih k v h)

theorem dictGet_key {κ α : Type} [DecidableEq κ] (l : List (κ × α)) (k : κ)
    (v : α) (h : dictGet l k = some v) : k ∈ l.map Prod.fst :=
  List.mem_map.mpr ⟨(k, v), dictGet_mem l k v h, rfl⟩

/-! ## Merge lemmas -/

theorem sumLen_cons (l : List String) (lst : List (List String)) :
    sumLen (l :: lst) = l.length + sumLen lst := by
  simp [sumLen]

theorem sumLen_zero_all_empty (lst : List (List String))
    (h : sumLen lst = 0) : lst.all List.isEmpty = true := by
  induction lst with
  | nil => rfl
  | cons a as ih =>
    rw [sumLen_cons] at h
    simp only [List.all_cons, Bool.and_eq_true]
    exact ⟨List.isEmpty_iff.mpr (List.eq_nil_of_length_eq_zero (by omega)),
      ih (by omega)⟩

theorem mergeDrop_length_le (c : String) (l : List String) :
    (mergeDrop c l).length ≤ l.length := by
  unfold mergeDrop
  split
  · rw [List.length_tail]; exact Nat.sub_le _ _
  · exact Nat.le_refl _

theorem mergeDrop_subset (c : String) (l : List String) :
    mergeDrop c l ⊆ l := by
  unfold mergeDrop
  split
  · exact List.tail_subset l
  · exact fun x h => h

theorem sumLen_filter_le (p : List String → Bool)
    (lst : List (List String)) : sumLen (lst.filter p) ≤ sumLen lst := by
  induction lst with
  | nil => exact Nat.le_refl _
  | cons a as ih =>
    rw [List.filter_cons]
    cases hpa : p a
    · simp only [hpa, Bool.false_eq_true, if_false, sumLen_cons]
      omega
    · simp only [hpa, if_true, sumLen_cons]
      omega

theorem sumLen_mergeRest_le (c : String) (lst : List (List String)) :
    sumLen (mergeRest c lst) ≤ sumLen lst := by
  refine le_trans (sumLen_filter_le _ _) ?_
  induction lst with
  | nil => exact Nat.le_refl _
  | cons a as ih =>
    simp only [List.map_cons, sumLen_cons]
    have := mergeDrop_length_le c a
    omega

theorem sumLen_mergeRest_lt (c : String) (lst : List (List String))
    (h : ∃ l ∈ lst, l.head? = some c) :
    sumLen (mergeRest c lst) < sumLen lst := by
  induction lst with
  | nil => simp at h
  | cons a as ih =>
    have hsplit : sumLen (mergeRest c (a :: as)) ≤
        (mergeDrop c a).length + sumLen (mergeRest c as) := by
      unfold mergeRest
      rw [List.map_cons, List.filter_cons]
      cases hap : (mergeDrop c a).isEmpty
      · simp only [hap, Bool.not_false, if_true, sumLen_cons]
        exact Nat.le_refl _
      · simp only [hap, Bool.not_true, Bool.false_eq_true, if_false]
        omega
    rcases h with ⟨l, hl, hlc⟩
    rcases List.mem_cons.mp hl with rfl | hmem
    · -- the witness is the head list: its head is dropped
      have hne : l ≠ [] := by
        intro hnil; rw [hnil] at hlc; simp at hlc
      have hdrop : (mergeDrop c l).length < l.length := by
        unfold mergeDrop
        rw [if_pos (by rw [hlc]; exact beq_self_eq_true _)]
        rw [List.length_tail]
        have := List.length_pos.mpr hne
        omega
      have hrest := sumLen_mergeRest_le c as
      rw [sumLen_cons]
      omega
    · have hstrict := ih ⟨l, hmem, hlc⟩
      have hle := mergeDrop_length_le c a
      rw [sumLen_cons]
      omega

theorem find?_head_mem (lst : List (List String)) (p : String → Bool)
    (c : String) (h : (lst.filterMap List.head?).find? p = some c) :
    ∃ l ∈ lst, l.head? = some c := by
  have hc := List.mem_of_find?_eq_some h
  rcases List.mem_filterMap.mp hc with ⟨l, hl, hlc⟩
  exact ⟨l, hl, hlc⟩

theorem sumLen_pos_of_head (lst : List (List String)) (l : List String)
    (c : String) (hl : l ∈ lst) (hc : l.head? = some c) : 1 ≤ sumLen lst := by
  have h1 : 1 ≤ l.length := by
    cases l with
    | nil => simp at hc
    | cons a t => simp
  have h2 : l.length ∈ lst.map List.length := List.mem_map.mpr ⟨l, hl, rfl⟩
  have h3 : l.length ≤ sumLen lst :=
    List.single_le_sum (fun x _ => Nat.zero_le x) _ h2
  omega

theorem c3_mergeF_fuel :
    ∀ (n₁ n₂ : Nat) (lst : List (List String)), sumLen lst ≤ n₁ →
      sumLen lst ≤ n₂ → c3_mergeF n₁ lst = c3_mergeF n₂ lst := by
  intro n₁
  induction n₁ with
  | zero =>
    intro n₂ lst h₁ h₂
    have hall := sumLen_zero_all_empty lst (Nat.le_zero.mp h₁)
    unfold c3_mergeF
    rw [if_pos hall, if_pos hall]
  | succ n ih =>
    intro n₂ lst h₁ h₂
    by_cases hall : lst.all List.isEmpty
    · unfold c3_mergeF; rw [if_pos hall, if_pos hall]
    · cases hfind : (lst.filterMap List.head?).find? (okCand lst) with
      | none =>
        unfold c3_mergeF
        rw [if_neg hall, if_neg hall, hfind]
      | some c =>
        obtain ⟨l, hl, hlc⟩ := find?_head_mem lst (okCand lst) c hfind
        have hpos := sumLen_pos_of_head lst l c hl hlc
        obtain ⟨m, rfl⟩ : ∃ m, n₂ = m + 1 := ⟨n₂ - 1, by omega⟩
        have hlt := sumLen_mergeRest_lt c lst ⟨l, hl, hlc⟩
        have hr₁ : sumLen (mergeRest c lst) ≤ n := by omega
        have hr₂ : sumLen (mergeRest c lst) ≤ m := by omega
        unfold c3_mergeF
        rw [if_neg hall, if_neg hall, hfind]
        dsimp only
        rw [ih m (mergeRest c lst) hr₁ hr₂]

theorem c3_merge_unfold (lst : List (List String)) :
    c3_merge lst =
      if lst.all List.isEmpty then some []
      else
        match (lst.filterMap List.head?).find? (okCand lst) with
        | none => none
        | some c =>
          match c3_merge (mergeRest c lst) with
          | none => none
          | some out => some (c :: out) := by
  by_cases hall : lst.all List.isEmpty
  · rw [if_pos hall]
    unfold c3_merge c3_mergeF
    rw [if_pos hall]
  · rw [if_neg hall]
    cases hfind : (lst.filterMap List.head?).find? (okCand lst) with
    | none =>
      unfold c3_merge c3_mergeF
      rw [if_neg hall, hfind]
    | some c =>
      obtain ⟨l, hl, hlc⟩ := find?_head_mem lst (okCand lst) c hfind
      have hpos := sumLen_pos_of_head lst l c hl hlc
      obtain ⟨m, hm⟩ : ∃ m, sumLen lst = m + 1 := ⟨sumLen lst - 1, by omega⟩
      have hlt := sumLen_mergeRest_lt c lst ⟨l, hl, hlc⟩
      have key : ∀ r, c3_merge (mergeRest c lst) = r →
          c3_merge lst =
            (match r with
            | none => none
            | some out => some (c :: out)) := by
        intro r hr
        unfold c3_merge at hr ⊢
        rw [hm]
        unfold c3_mergeF
        rw [if_neg hall, hfind]
        dsimp only
        rw [c3_mergeF_fuel m (sumLen (mergeRest c lst)) (mergeRest c lst)
          (by omega) (Nat.le_refl _), hr]
      exact key (c3_merge (mergeRest c lst)) rfl

theorem mem_of_mem_mergeRest (c : String) (lst : List (List String))
    (l' : List String) (x : String) (hl' : l' ∈ mergeRest c lst)
    (hx : x ∈ l') : ∃ l ∈ lst, x ∈ l := by
  unfold mergeRest at hl'
  have hmap := List.mem_of_mem_filter hl'
  rcases List.mem_map.mp hmap with ⟨l, hl, rfl⟩
  exact ⟨l, hl, mergeDrop_subset c l hx⟩

theorem mem_mergeRest_of_mem (c : String) (lst : List (List String))
    (l : List String) (x : String) (hl : l ∈ lst) (hx : x ∈ l)
    (hxc : x ≠ c) : ∃ l' ∈ mergeRest c lst, x ∈ l' := by
  refine ⟨mergeDrop c l, ?_, ?_⟩
  · unfold mergeRest
    refine List.mem_filter.mpr ⟨List.mem_map.mpr ⟨l, hl, rfl⟩, ?_⟩
    have hxm : x ∈ mergeDrop c l := by
      unfold mergeDrop
      split
      · next hhd =>
        cases l with
        | nil => simp at hx
        | cons a t =>
          have ha : a = c := by
            simpa using hhd
          rcases List.mem_cons.mp hx with rfl | ht
          · exact absurd ha hxc
          · exact ht
      · exact hx
    simp only [Bool.not_eq_true']
    exact List.isEmpty_eq_false.mpr (List.ne_nil_of_mem hxm)
  · unfold mergeDrop
    split
    · next hhd =>
      cases l with
      | nil => simp at hx
      | cons a t =>
        have ha : a = c := by simpa using hhd
        rcases List.mem_cons.mp hx with rfl | ht
        · exact absurd ha hxc
        · exact ht
    · exact hx

theorem all_empty_no_mem (lst : List (List String))
    (hall : lst.all List.isEmpty = true) (l : List String) (hl : l ∈ lst) :
    l = [] := by
  have := List.all_eq_true.mp hall l hl
  exact List.isEmpty_iff.mp this

theorem c3_mergeF_mem :
    ∀ (n : Nat) (lst : List (List String)) (out : List String),
      c3_mergeF n lst = some out →
      ∀ x, x ∈ out ↔ ∃ l ∈ lst, x ∈ l := by
  intro n
  induction n with
  | zero =>
    intro lst out h x
    unfold c3_mergeF at h
    by_cases hall : lst.all List.isEmpty
    · rw [if_pos hall] at h
      obtain rfl : ([] : List String) = out := by simpa using h
      constructor
      · intro hx
        exact absurd hx (List.not_mem_nil x)
      · rintro ⟨l, hl, hxl⟩
        rw [all_empty_no_mem lst hall l hl] at hxl
        exact absurd hxl (List.not_mem_nil x)
    · rw [if_neg hall] at h
      cases hfind : (lst.filterMap List.head?).find? (okCand lst) with
      | none => rw [hfind] at h; exact absurd h (by simp)
      | some c => rw [hfind] at h; exact absurd h (by simp)
  | succ n ih =>
    intro lst out h x
    unfold c3_mergeF at h
    by_cases hall : lst.all List.isEmpty
    · rw [if_pos hall] at h
      obtain rfl : ([] : List String) = out := by simpa using h
      constructor
      · intro hx
        exact absurd hx (List.not_mem_nil x)
      · rintro ⟨l, hl, hxl⟩
        rw [all_empty_no_mem lst hall l hl] at hxl
        exact absurd hxl (List.not_mem_nil x)
    · rw [if_neg hall] at h
      cases hfind : (lst.filterMap List.head?).find? (okCand lst) with
      | none => rw [hfind] at h; exact absurd h (by simp)
      | some c =>
        rw [hfind] at h
        dsimp only at h
        cases hrec : c3_mergeF n (mergeRest c lst) with
        | none => rw [hrec] at h; exact absurd h (by simp)
        | some out' =>
          rw [hrec] at h
          obtain rfl : c :: out' = out := by simpa using h
          obtain ⟨lc, hlc, hlch⟩ := find?_head_mem lst (okCand lst) c hfind
          constructor
          · intro hx
            rcases List.mem_cons.mp hx with rfl | hx'
            · exact ⟨lc, hlc, List.mem_of_mem_head? hlch⟩
            · obtain ⟨l'', hl'', hxl''⟩ := (ih _ _ hrec x).mp hx'
              exact mem_of_mem_mergeRest c lst l'' x hl'' hxl''
          · rintro ⟨l, hl, hxl⟩
            by_cases hxc : x = c
            · exact hxc ▸ List.mem_cons_self _ _
            · obtain ⟨l', hl', hxl'⟩ :=
                mem_mergeRest_of_mem c lst l x hl hxl hxc
              exact List.mem_cons_of_mem _
                ((ih _ _ hrec x).mpr ⟨l', hl', hxl'⟩)

theorem okCand_not_mem_mergeDrop (lst : List (List String)) (c : String)
    (hok : okCand lst c = true) (l : List String) (hl : l ∈ lst) :
    c ∉ mergeDrop c l := by
  have htail : c ∉ l.tail := by
    have := List.all_eq_true.mp hok l hl
    simpa using this
  unfold mergeDrop
  split
  · exact htail
  · next hhd =>
    intro hcl
    cases l with
    | nil => simp at hcl
    | cons a t =>
      rcases List.mem_cons.mp hcl with rfl | ht
      · exact hhd (by simp)
      · exact htail (by simpa using ht)

theorem c3_mergeF_nodup :
    ∀ (n : Nat) (lst : List (List String)) (out : List String),
      c3_mergeF n lst = some out → out.Nodup := by
  intro n
  induction n with
  | zero =>
    intro lst out h
    unfold c3_mergeF at h
    by_cases hall : lst.all List.isEmpty
    · rw [if_pos hall] at h
      obtain rfl : ([] : List String) = out := by simpa using h
      exact List.nodup_nil
    · rw [if_neg hall] at h
      cases hfind : (lst.filterMap List.head?).find? (okCand lst) with
      | none => rw [hfind] at h; exact absurd h (by simp)
      | some c => rw [hfind] at h; exact absurd h (by simp)
  | succ n ih =>
    intro lst out h
    unfold c3_mergeF at h
    by_cases hall : lst.all List.isEmpty
    · rw [if_pos hall] at h
      obtain rfl : ([] : List String) = out := by simpa using h
      exact List.nodup_nil
    · rw [if_neg hall] at h
      cases hfind : (lst.filterMap List.head?).find? (okCand lst) with
      | none => rw [hfind] at h; exact absurd h (by simp)
      | some c =>
        rw [hfind] at h
        dsimp only at h
        cases hrec : c3_mergeF n (mergeRest c lst) with
        | none => rw [hrec] at h; exact absurd h (by simp)
        | some out' =>
          rw [hrec] at h
          obtain rfl : c :: out' = out := by simpa using h
          refine List.nodup_cons.mpr ⟨?_, ih _ _ hrec⟩
          intro hc
          obtain ⟨l', hl', hcl'⟩ := (c3_mergeF_mem n _ _ hrec c).mp hc
          unfold mergeRest at hl'
          have hmap := List.mem_of_mem_filter hl'
          rcases List.mem_map.mp hmap with ⟨l, hl, rfl⟩
          have hok := List.find?_some hfind
          exact okCand_not_mem_mergeDrop lst c hok l hl hcl'

/-! ## Linearization lemmas (`c3`) -/

theorem c3_zero (m : Model) (c : String) :
    c3 m 0 c =
      match dictGet m c with
      | none => some [c]
      | some ct => if ct.base_contracts.isEmpty then some [c] else none := rfl

theorem c3_succ (m : Model) (n : Nat) (c : String) :
    c3 m (n + 1) c = c3Step m (c3 m n) c := rfl

theorem transBases_succ (m : Model) (n : Nat) (c : String) :
    transBases m (n + 1) c =
      match dictGet m c with
      | none => [c]
      | some ct =>
        if ct.base_contracts.isEmpty then [c]
        else c :: ct.base_contracts.flatMap (fun b => transBases m n b) := rfl

theorem transBases_self (m : Model) : ∀ (n : Nat) (c : String),
    c ∈ transBases m n c := by
  intro n c
  cases n with
  | zero => exact List.mem_singleton.mpr rfl
  | succ n =>
    rw [transBases_succ]
    cases hd : dictGet m c with
    | none =>
      exact List.mem_singleton.mpr rfl
    | some ct =>
      dsimp only
      cases hb : ct.base_contracts.isEmpty
      · simp only [hb, Bool.false_eq_true, if_false]
        exact List.mem_cons_self _ _
      · simp only [hb, if_true]
        exact List.mem_singleton.mpr rfl

theorem listOptAll_mem_left {α β : Type} (f : β → Option α) :
    ∀ (bs : List β) (out : List α), listOptAll (bs.map f) = some out →
      ∀ l ∈ out, ∃ b ∈ bs, f b = some l := by
  intro bs
  induction bs with
  | nil =>
    intro out h l hl
    obtain rfl : ([] : List α) = out := by simpa [listOptAll] using h
    exact absurd hl (List.not_mem_nil l)
  | cons b rest ih =>
    intro out h l hl
    rw [List.map_cons] at h
    cases hfb : f b with
    | none => rw [hfb] at h; simp [listOptAll] at h
    | some a =>
      rw [hfb] at h
      unfold listOptAll at h
      cases hrest : listOptAll (rest.map f) with
      | none => rw [hrest] at h; simp at h
      | some l' =>
        rw [hrest] at h
        obtain rfl : a :: l' = out := by simpa using h
        rcases List.mem_cons.mp hl with rfl | hl'
        · exact ⟨b, List.mem_cons_self _ _, hfb⟩
        · obtain ⟨b', hb', hfb'⟩ := ih l' hrest l hl'
          exact ⟨b', List.mem_cons_of_mem _ hb', hfb'⟩

theorem listOptAll_mem_right {α β : Type} (f : β → Option α) :
    ∀ (bs : List β) (out : List α), listOptAll (bs.map f) = some out →
      ∀ b ∈ bs, ∃ l ∈ out, f b = some l := by
  intro bs
  induction bs with
  | nil =>
    intro out h b hb
    exact absurd hb (List.not_mem_nil b)
  | cons b₀ rest ih =>
    intro out h b hb
    rw [List.map_cons] at h
    cases hfb : f b₀ with
    | none => rw [hfb] at h; simp [listOptAll] at h
    | some a =>
      rw [hfb] at h
      unfold listOptAll at h
      cases hrest : listOptAll (rest.map f) with
      | none => rw [hrest] at h; simp at h
      | some l' =>
        rw [hrest] at h
        obtain rfl : a :: l' = out := by simpa using h
        rcases List.mem_cons.mp hb with rfl | hb'
        · exact ⟨a, List.mem_cons_self _ _, hfb⟩
        · obtain ⟨l, hl, hfb'⟩ := ih l' hrest b hb'
          exact ⟨l, List.mem_cons_of_mem _ hl, hfb'⟩

theorem c3_mem (m : Model) : ∀ (n : Nat) (c : String) (L : List String),
    c3 m n c = some L → ∀ x, x ∈ L ↔ x ∈ transBases m n c := by
  intro n
  induction n with
  | zero =>
    intro c L h x
    rw [c3_zero] at h
    cases hd : dictGet m c with
    | none =>
      rw [hd] at h
      dsimp only at h
      obtain rfl : [c] = L := by simpa using h
      exact Iff.rfl
    | some ct =>
      rw [hd] at h
      dsimp only at h
      cases hb : ct.base_contracts.isEmpty
      · rw [hb] at h; simp at h
      · rw [hb] at h
        obtain rfl : [c] = L := by simpa using h
        exact Iff.rfl
  | succ n ih =>
    intro c L h x
    rw [c3_succ] at h
    unfold c3Step at h
    rw [transBases_succ]
    cases hd : dictGet m c with
    | none =>
      rw [hd] at h
      dsimp only at h
      obtain rfl : [c] = L := by simpa using h
      exact Iff.rfl
    | some ct =>
      rw [hd] at h
      dsimp only at h
      cases hb : ct.base_contracts.isEmpty
      · simp only [hb, Bool.false_eq_true, if_false] at h ⊢
        cases hlo : listOptAll (ct.base_contracts.map (c3 m n)) with
        | none => rw [hlo] at h; simp at h
        | some ls =>
          rw [hlo] at h
          dsimp only at h
          cases hmg : c3_merge (ls ++ [ct.base_contracts]) with
          | none => rw [hmg] at h; simp at h
          | some merged =>
            rw [hmg] at h
            obtain rfl : c :: merged = L := by simpa using h
            have hmg' : c3_mergeF (sumLen (ls ++ [ct.base_contracts]))
                (ls ++ [ct.base_contracts]) = some merged := hmg
            have hmem := c3_mergeF_mem _ _ _ hmg'
            constructor
            · intro hx
              rcases List.mem_cons.mp hx with rfl | hx'
              · exact List.mem_cons_self _ _
              · obtain ⟨l, hl, hxl⟩ := (hmem x).mp hx'
                rcases List.mem_append.mp hl with hls | hbase
                · obtain ⟨b, hbmem, hfb⟩ :=
                    listOptAll_mem_left (c3 m n) _ _ hlo l hls
                  have hx2 : x ∈ transBases m n b := (ih b l hfb x).mp hxl
                  exact List.mem_cons_of_mem _
                    (List.mem_flatMap.mpr ⟨b, hbmem, hx2⟩)
                · have hlb : l = ct.base_contracts := by simpa using hbase
                  subst hlb
                  exact List.mem_cons_of_mem _
                    (List.mem_flatMap.mpr ⟨x, hxl, transBases_self m n x⟩)
            · intro hx
              rcases List.mem_cons.mp hx with rfl | hx'
              · exact List.mem_cons_self _ _
              · obtain ⟨b, hbmem, hxb⟩ := List.mem_flatMap.mp hx'
                obtain ⟨l, hl, hfb⟩ :=
                  listOptAll_mem_right (c3 m n) _ _ hlo b hbmem
                have hxl : x ∈ l := (ih b l hfb x).mpr hxb
                exact List.mem_cons_of_mem _
                  ((hmem x).mpr ⟨l, List.mem_append_left _ hl, hxl⟩)
      · simp only [hb, if_true] at h ⊢
        obtain rfl : [c] = L := by simpa using h
        exact Iff.rfl

theorem c3_head (m : Model) (n : Nat) (c : String) (L : List String)
    (h : c3 m n c = some L) : L.head? = some c := by
  cases n with
  | zero =>
    rw [c3_zero] at h
    cases hd : dictGet m c with
    | none =>
      rw [hd] at h
      dsimp only at h
      obtain rfl : [c] = L := by simpa using h
      rfl
    | some ct =>
      rw [hd] at h
      dsimp only at h
      cases hb : ct.base_contracts.isEmpty
      · rw [hb] at h; simp at h
      · rw [hb] at h
        obtain rfl : [c] = L := by simpa using h
        rfl
  | succ n =>
    rw [c3_succ] at h
    unfold c3Step at h
    cases hd : dictGet m c with
    | none =>
      rw [hd] at h
      dsimp only at h
      obtain rfl : [c] = L := by simpa using h
      rfl
    | some ct =>
      rw [hd] at h
      dsimp only at h
      cases hb : ct.base_contracts.isEmpty
      · simp only [hb, Bool.false_eq_true, if_false] at h
        cases hlo : listOptAll (ct.base_contracts.map (c3 m n)) with
        | none => rw [hlo] at h; simp at h
        | some ls =>
          rw [hlo] at h
          dsimp only at h
          cases hmg : c3_merge (ls ++ [ct.base_contracts]) with
          | none => rw [hmg] at h; simp at h
          | some merged =>
            rw [hmg] at h
            obtain rfl : c :: merged = L := by simpa using h
            rfl
      · simp only [hb, if_true] at h
        obtain rfl : [c] = L := by simpa using h
        rfl

theorem transBases_reach (m : Model) : ∀ (n : Nat) (b x : String),
    x ∈ transBases m n b → x = b ∨ Relation.TransGen (BaseStep m) b x := by
  intro n
  induction n with
  | zero =>
    intro b x hx
    exact Or.inl (List.mem_singleton.mp hx)
  | succ n ih =>
    intro b x hx
    rw [transBases_succ] at hx
    cases hd : dictGet m b with
    | none =>
      rw [hd] at hx
      dsimp only at hx
      exact Or.inl (List.mem_singleton.mp hx)
    | some ct =>
      rw [hd] at hx
      dsimp only at hx
      cases hb : ct.base_contracts.isEmpty
      · simp only [hb, Bool.false_eq_true, if_false] at hx
        rcases List.mem_cons.mp hx with rfl | hx'
        · exact Or.inl rfl
        · obtain ⟨b', hb', hxb'⟩ := List.mem_flatMap.mp hx'
          have hstep : BaseStep m b b' := ⟨ct, hd, hb'⟩
          rcases ih b' x hxb' with rfl | htg
          · exact Or.inr (Relation.TransGen.single hstep)
          · exact Or.inr (Relation.TransGen.head hstep htg)
      · simp only [hb, if_true] at hx
        exact Or.inl (List.mem_singleton.mp hx)

theorem c3_cycle_none (m : Model) : ∀ (k : Nat) (c : String),
    Relation.TransGen (BaseStep m) c c → c3 m k c = none := by
  intro k
  induction k with
  | zero =>
    intro c hcyc
    obtain ⟨b, ⟨ct, hget, hbmem⟩, _⟩ := Relation.TransGen.head'_iff.mp hcyc
    rw [c3_zero, hget]
    dsimp only
    rw [if_neg]
    simp only [List.isEmpty_iff]
    exact List.ne_nil_of_mem hbmem
  | succ k ih =>
    intro c hcyc
    obtain ⟨b, hstep, hrtg⟩ := Relation.TransGen.head'_iff.mp hcyc
    obtain ⟨ct, hget, hbmem⟩ := hstep
    have hbb : Relation.TransGen (BaseStep m) b b :=
      Relation.TransGen.trans_right hrtg (Relation.TransGen.single ⟨ct, hget, hbmem⟩)
    have hnone : c3 m k b = none := ih b hbb
    rw [c3_succ]
    unfold c3Step
    rw [hget]
    dsimp only
    rw [if_neg (by simp only [List.isEmpty_iff]; exact List.ne_nil_of_mem hbmem)]
    cases hlo : listOptAll (ct.base_contracts.map (c3 m k)) with
    | none => rfl
    | some ls =>
      obtain ⟨l, _, hfb⟩ := listOptAll_mem_right (c3 m k) _ _ hlo b hbmem
      rw [hnone] at hfb
      exact absurd hfb (by simp)

theorem c3_nodup (m : Model) : ∀ (n : Nat) (c : String) (L : List String),
    c3 m n c = some L → L.Nodup := by
  intro n c L h
  cases n with
  | zero =>
    rw [c3_zero] at h
    cases hd : dictGet m c with
    | none =>
      rw [hd] at h
      dsimp only at h
      obtain rfl : [c] = L := by simpa using h
      exact List.nodup_singleton c
    | some ct =>
      rw [hd] at h
      dsimp only at h
      cases hb : ct.base_contracts.isEmpty
      · rw [hb] at h; simp at h
      · rw [hb] at h
        obtain rfl : [c] = L := by simpa using h
        exact List.nodup_singleton c
  | succ n =>
    have horig := h
    rw [c3_succ] at h
    unfold c3Step at h
    cases hd : dictGet m c with
    | none =>
      rw [hd] at h
      dsimp only at h
      obtain rfl : [c] = L := by simpa using h
      exact List.nodup_singleton c
    | some ct =>
      rw [hd] at h
      dsimp only at h
      cases hb : ct.base_contracts.isEmpty
      · simp only [hb, Bool.false_eq_true, if_false] at h
        cases hlo : listOptAll (ct.base_contracts.map (c3 m n)) with
        | none => rw [hlo] at h; simp at h
        | some ls =>
          rw [hlo] at h
          dsimp only at h
          cases hmg : c3_merge (ls ++ [ct.base_contracts]) with
          | none => rw [hmg] at h; simp at h
          | some merged =>
            rw [hmg] at h
            obtain rfl : c :: merged = L := by simpa using h
            have hmg' : c3_mergeF (sumLen (ls ++ [ct.base_contracts]))
                (ls ++ [ct.base_contracts]) = some merged := hmg
            refine List.nodup_cons.mpr ⟨?_, c3_mergeF_nodup _ _ _ hmg'⟩
            intro hc
            obtain ⟨l, hl, hcl⟩ := (c3_mergeF_mem _ _ _ hmg' c).mp hc
            have hcyc : Relation.TransGen (BaseStep m) c c := by
              rcases List.mem_append.mp hl with hls | hbase
              · obtain ⟨b, hbmem, hfb⟩ :=
                  listOptAll_mem_left (c3 m n) _ _ hlo l hls
                have hstep : BaseStep m c b := ⟨ct, hd, hbmem⟩
                have hcb : c ∈ transBases m n b := (c3_mem m n b l hfb c).mp hcl
                rcases transBases_reach m n b c hcb with rfl | htg
                · exact Relation.TransGen.single hstep
                · exact Relation.TransGen.head hstep htg
              · have hlb : l = ct.base_contracts := by simpa using hbase
                subst hlb
                exact Relation.TransGen.single ⟨ct, hd, hcl⟩
            rw [c3_cycle_none m (n + 1) c hcyc] at horig
            exact absurd horig (by simp)
      · simp only [hb, if_true] at h
        obtain rfl : [c] = L := by simpa using h
        exact List.nodup_singleton c

theorem c3_no_bases (m : Model) (n : Nat) (c : String) (ct : Contract)
    (hd : dictGet m c = some ct) (hb : ct.base_contracts = []) :
    c3 m n c = some [c] := by
  cases n with
  | zero =>
    rw [c3_zero, hd]
    dsimp only
    rw [if_pos (by simp [hb])]
  | succ n =>
    rw [c3_succ]
    unfold c3Step
    rw [hd]
    dsimp only
    rw [if_pos (by simp [hb])]

/-! ## Resolution lemmas (`resolveCall`, `find_base`) -/

theorem find_base_pred_this (m : Model) (f : Function) (b : String) :
    (match dictGet m b with
    | none => false
    | some base => hasFun base f) = definesFun m b f := by
  unfold definesFun
  cases dictGet m b <;> rfl

theorem find_base_pred_super (m : Model) (f : Function) (cc b : String) :
    (match dictGet m b with
    | none => false
    | some base => (!(b == cc)) && hasFun base f) =
      ((!(b == cc)) && definesFun m b f) := by
  unfold definesFun
  cases dictGet m b <;> simp

theorem find_base_key (m : Model) (name : String)
    (p : String → Contract → Bool) (b : String)
    (h : find_base m name p = Except.ok (some b)) : b ∈ m.map Prod.fst := by
  unfold find_base at h
  cases hd : dictGet m name with
  | none => rw [hd] at h; exact absurd h (by simp)
  | some ct =>
    rw [hd] at h
    dsimp only at h
    have hfind : ct.linearization.find? (fun base_name =>
        match dictGet m base_name with
        | none => false
        | some base => p base_name base) = some b := by
      injection h
    have hpb := List.find?_some hfind
    cases hdb : dictGet m b with
    | none => rw [hdb] at hpb; simp at hpb
    | some cb => exact dictGet_key m b cb hdb

/-- C2: a dequeued call whose receiver is the sentinel `super` is resolved by
scanning the linearization of the *callee's contract*, restricted to
strictly-proper bases (the callee's contract itself is excluded even if it
defines a matching function), and resolves to the first base defining a
function with the same (name, parameter count, kind) identity; the resolved
call keeps the callee's context.  For the chain C → B → A where all three
define `foo`, a `super.foo()` call from C resolves to B (see the witness). -/
theorem claim_C2 (m : Model) (callee call : Call) (ct : Contract)
    (hsup : call.contract = "super")
    (hget : dictGet m callee.contract = some ct) :
    resolveCall m callee call =
      Except.ok ((ct.linearization.filter (fun b =>
        (!(b == callee.contract)) && definesFun m b call.function)).head?.map
        (fun b => Call.mk b call.function callee.context)) := by
  unfold resolveCall
  rw [if_pos (Or.inr hsup), if_pos hsup]
  unfold find_base
  rw [hget]
  dsimp only
  rw [List.filter_head?]
  simp only [find_base_pred_super]
  rcases hr : ct.linearization.find? (fun b =>
      (!(b == callee.contract)) && definesFun m b call.function) with _ | b
  · simp
  · simp

/-- C3: a dequeued call whose receiver is the sentinel `this` (internal call)
is resolved by scanning the linearization of the *callee's context contract*
(not the callee's own contract) left to right, resolving to the first
contract defining a function with matching (name, parameter count, kind)
identity; so a call inside an inherited body executing in a derived context
resolves against the derived context's linearization (see the witness). -/
theorem claim_C3 (m : Model) (callee call : Call) (ctxCt : Contract)
    (hthis : call.contract = "this")
    (hget : dictGet m callee.context = some ctxCt) :
    resolveCall m callee call =
      Except.ok ((ctxCt.linearization.filter (fun b =>
        definesFun m b call.function)).head?.map
        (fun b => Call.mk b call.function callee.context)) := by
  unfold resolveCall
  rw [if_pos (Or.inl hthis), if_neg (by rw [hthis]; decide)]
  unfold find_base
  rw [hget]
  dsimp only
  rw [List.filter_head?]
  simp only [find_base_pred_this]
  rcases hr : ctxCt.linearization.find? (fun b =>
      definesFun m b call.function) with _ | b
  · simp
  · simp

/-- C4 (amended): a dequeued call whose recorded receiver is literally a
contract name appearing in the callee's contract's linearization is resolved
by scanning that ancestor's linearization for the first contract defining a
matching function — but the resolved target Call's context field equals the
*callee's context, unchanged* (not that ancestor: the source leaves
`context_to = callee.context` in the direct-base branch; only the external
branch reassigns it). -/
theorem claim_C4 (m : Model) (callee call : Call) (ct anc : Contract)
    (b : String)
    (hnthis : call.contract ≠ "this") (hnsuper : call.contract ≠ "super")
    (hget : dictGet m callee.contract = some ct)
    (hmem : call.contract ∈ ct.linearization)
    (hanc : dictGet m call.contract = some anc)
    (hfb : (anc.linearization.filter (fun x =>
      definesFun m x call.function)).head? = some b) :
    resolveCall m callee call =
      Except.ok (some (Call.mk b call.function callee.context)) := by
  have hfind : anc.linearization.find? (fun x =>
      definesFun m x call.function) = some b := by
    rw [← List.filter_head?]
    exact hfb
  unfold resolveCall
  rw [if_neg (by rintro (h | h) <;> [exact hnthis h; exact hnsuper h])]
  rw [hget]
  dsimp only
  rw [if_pos hmem]
  unfold find_base
  rw [hanc]
  dsimp only
  simp only [find_base_pred_this]
  rw [hfind]

theorem resolveCall_target (m : Model) (callee call t : Call)
    (h : resolveCall m callee call = Except.ok (some t)) :
    t.function = call.function ∧
      (t.contract ∈ m.map Prod.fst ∨
        ∃ p ∈ m, t.contract ∈ p.2.usingfors.map Prod.snd) := by
  unfold resolveCall at h
  by_cases hsent : call.contract = "this" ∨ call.contract = "super"
  · rw [if_pos hsent] at h
    cases hfb : (if call.contract = "super" then
        find_base m callee.contract
          (fun n c => (!(n == callee.contract)) && hasFun c call.function)
      else
        find_base m callee.context
          (fun _ c => hasFun c call.function)) with
    | error e => rw [hfb] at h; simp at h
    | ok r =>
      rw [hfb] at h
      cases r with
      | none => simp at h
      | some contract_to =>
        dsimp only at h
        have ht : Call.mk contract_to call.function callee.context = t := by
          simpa using h
        subst ht
        refine ⟨rfl, Or.inl ?_⟩
        by_cases hsup : call.contract = "super"
        · rw [if_pos hsup] at hfb
          exact find_base_key m callee.contract _ contract_to hfb
        · rw [if_neg hsup] at hfb
          exact find_base_key m callee.context _ contract_to hfb
  · rw [if_neg hsent] at h
    cases hget : dictGet m callee.contract with
    | none => rw [hget] at h; simp at h
    | some calleeCt =>
      rw [hget] at h
      dsimp only at h
      cases hdir : (if call.contract ∈ calleeCt.linearization then
          find_base m call.contract (fun _ c => hasFun c call.function)
        else Except.ok none) with
      | error e => rw [hdir] at h; simp at h
      | ok r =>
        rw [hdir] at h
        cases r with
        | some base_name =>
          dsimp only at h
          have ht : Call.mk base_name call.function callee.context = t := by
            simpa using h
          subst ht
          refine ⟨rfl, Or.inl ?_⟩
          by_cases hlin : call.contract ∈ calleeCt.linearization
          · rw [if_pos hlin] at hdir
            exact find_base_key m call.contract _ base_name hdir
          · rw [if_neg hlin] at hdir
            simp at hdir
        | none =>
          dsimp only at h
          cases hvar : find_base m callee.contract
              (fun _ c => hasVar c call.contract) with
          | error e => rw [hvar] at h; simp at h
          | ok rv =>
            rw [hvar] at h
            cases rv with
            | none => simp at h
            | some base_name =>
              dsimp only at h
              cases hbase : dictGet m base_name with
              | none => rw [hbase] at h; simp at h
              | some baseCt =>
                rw [hbase] at h
                dsimp only at h
                cases hsv : dictGet baseCt.state_user_vars call.contract with
                | none => rw [hsv] at h; simp at h
                | some contract_to =>
                  rw [hsv] at h
                  dsimp only at h
                  by_cases hin : (dictGet m contract_to).isSome
                  · rw [if_pos hin] at h
                    have ht : Call.mk contract_to call.function base_name
                        = t := by simpa using h
                    subst ht
                    refine ⟨rfl, Or.inl ?_⟩
                    obtain ⟨v, hv⟩ := Option.isSome_iff_exists.mp hin
                    exact dictGet_key m contract_to v hv
                  · rw [if_neg hin] at h
                    cases huf : find_base m base_name
                        (fun _ c => hasUsing c contract_to) with
                    | error e => rw [huf] at h; simp at h
                    | ok ru =>
                      rw [huf] at h
                      cases ru with
                      | none => simp at h
                      | some base_usingfor =>
                        dsimp only at h
                        cases hufc : dictGet m base_usingfor with
                        | none => rw [hufc] at h; simp at h
                        | some ufCt =>
                          rw [hufc] at h
                          dsimp only at h
                          cases hlib : dictGet ufCt.usingfors contract_to with
                          | none => rw [hlib] at h; simp at h
                          | some libname =>
                            rw [hlib] at h
                            have ht : Call.mk libname call.function base_name
                                = t := by simpa using h
                            subst ht
                            refine ⟨rfl, Or.inr ?_⟩
                            refine ⟨(base_usingfor, ufCt),
                              dictGet_mem m base_usingfor ufCt hufc, ?_⟩
                            exact List.mem_map.mpr
                              ⟨(contract_to, libname),
                                dictGet_mem _ _ _ hlib, rfl⟩

/-! ## Worklist lemmas (`walk_call`) -/

theorem mem_addEdge (e e₀ : Edge) (l : List Edge) (h : e ∈ addEdge e₀ l) :
    e ∈ l ∨ e = e₀ := by
  unfold addEdge at h
  split at h
  · exact Or.inl h
  · rcases List.mem_append.mp h with hl | hr
    · exact Or.inl hl
    · exact Or.inr (List.mem_singleton.mp hr)

theorem processCalls_extend (m : Model) (callee : Call) :
    ∀ (raw calls : List Call) (edges : List Edge) (calls' : List Call)
      (edges' : List Edge),
      processCalls m callee raw calls edges = Except.ok (calls', edges') →
      ∃ ext, calls' = calls ++ ext := by
  intro raw
  induction raw with
  | nil =>
    intro calls edges calls' edges' h
    have h' : calls = calls' ∧ edges = edges' := by
      simpa [processCalls] using h
    exact ⟨[], by rw [← h'.1, List.append_nil]⟩
  | cons call rest ih =>
    intro calls edges calls' edges' h
    unfold processCalls at h
    cases hr : resolveCall m callee call with
    | error e => rw [hr] at h; simp at h
    | ok r =>
      rw [hr] at h
      cases r with
      | none => exact ih _ _ _ _ h
      | some call_to =>
        dsimp only at h
        by_cases hmem : memCall call_to calls = true
        · rw [if_pos hmem] at h
          exact ih _ _ _ _ h
        · rw [if_neg hmem] at h
          obtain ⟨ext, hext⟩ := ih _ _ _ _ h
          exact ⟨call_to :: ext, by simp [hext]⟩

theorem processCalls_edges (m : Model) (callee : Call) :
    ∀ (raw calls : List Call) (edges : List Edge) (calls' : List Call)
      (edges' : List Edge),
      processCalls m callee raw calls edges = Except.ok (calls', edges') →
      ∀ e ∈ edges', e ∈ edges ∨ e.caller = callee := by
  intro raw
  induction raw with
  | nil =>
    intro calls edges calls' edges' h e he
    have h' : calls = calls' ∧ edges = edges' := by
      simpa [processCalls] using h
    exact Or.inl (h'.2 ▸ he)
  | cons call rest ih =>
    intro calls edges calls' edges' h e he
    unfold processCalls at h
    cases hr : resolveCall m callee call with
    | error e' => rw [hr] at h; simp at h
    | ok r =>
      rw [hr] at h
      cases r with
      | none => exact ih _ _ _ _ h e he
      | some call_to =>
        dsimp only at h
        rcases ih _ _ _ _ h e he with hin | hcaller
        · rcases mem_addEdge e (Edge.mk callee call_to) edges hin with h1 | h2
          · exact Or.inl h1
          · exact Or.inr (by rw [h2])
        · exact Or.inr hcaller

theorem key_mem_univC (m : Model) (entry : Call) (a : String)
    (h : a ∈ m.map Prod.fst) : a ∈ univC m entry :=
  List.mem_cons_of_mem _ (List.mem_append_left _ h)

theorem uf_mem_univC (m : Model) (entry : Call) (a : String)
    (h : ∃ p ∈ m, a ∈ p.2.usingfors.map Prod.snd) : a ∈ univC m entry := by
  obtain ⟨p, hp, ha⟩ := h
  exact List.mem_cons_of_mem _
    (List.mem_append_right _ (List.mem_flatMap.mpr ⟨p, hp, ha⟩))

theorem raw_mem_univF (m : Model) (entry : Call) (cc : String) (ct : Contract)
    (fk : Function) (raw : List Call) (call : Call)
    (hct : dictGet m cc = some ct) (hraw : dictGet ct.functions fk = some raw)
    (hc : call ∈ raw) : call.function ∈ univF m entry := by
  refine List.mem_cons_of_mem _
    (List.mem_flatMap.mpr ⟨(cc, ct), dictGet_mem _ _ _ hct, ?_⟩)
  exact List.mem_flatMap.mpr
    ⟨(fk, raw), dictGet_mem _ _ _ hraw, List.mem_map.mpr ⟨call, hc, rfl⟩⟩

theorem processCalls_inv (m : Model) (entry callee : Call) :
    ∀ (raw calls : List Call) (edges : List Edge) (calls' : List Call)
      (edges' : List Edge),
      processCalls m callee raw calls edges = Except.ok (calls', edges') →
      (∀ c ∈ raw, c.function ∈ univF m entry) →
      (calls.map pairKey).Nodup →
      (∀ c ∈ calls, c.contract ∈ univC m entry ∧
        c.function ∈ univF m entry) →
      (calls'.map pairKey).Nodup ∧
        ∀ c ∈ calls', c.contract ∈ univC m entry ∧
          c.function ∈ univF m entry := by
  intro raw
  induction raw with
  | nil =>
    intro calls edges calls' edges' h _ hnd huniv
    have h' : calls = calls' ∧ edges = edges' := by
      simpa [processCalls] using h
    exact h'.1 ▸ ⟨hnd, huniv⟩
  | cons call rest ih =>
    intro calls edges calls' edges' h hraw hnd huniv
    unfold processCalls at h
    cases hr : resolveCall m callee call with
    | error e => rw [hr] at h; simp at h
    | ok r =>
      rw [hr] at h
      cases r with
      | none =>
        exact ih _ _ _ _ h (fun c hc => hraw c (List.mem_cons_of_mem _ hc))
          hnd huniv
      | some call_to =>
        dsimp only at h
        obtain ⟨htf, htc⟩ := resolveCall_target m callee call call_to hr
        have htu : call_to.contract ∈ univC m entry ∧
            call_to.function ∈ univF m entry := by
          constructor
          · rcases htc with hk | huf
            · exact key_mem_univC m entry _ hk
            · exact uf_mem_univC m entry _ huf
          · rw [htf]
            exact hraw call (List.mem_cons_self _ _)
        by_cases hmem : memCall call_to calls = true
        · rw [if_pos hmem] at h
          exact ih _ _ _ _ h (fun c hc => hraw c (List.mem_cons_of_mem _ hc))
            hnd huniv
        · rw [if_neg hmem] at h
          have hfresh : pairKey call_to ∉ calls.map pairKey := by
            intro hpk
            exact hmem ((memCall_iff call_to calls).mpr hpk)
          have hnd' : ((calls ++ [call_to]).map pairKey).Nodup := by
            rw [List.map_append, List.map_singleton, List.nodup_append]
            refine ⟨hnd, List.nodup_singleton _, ?_⟩
            intro a ha hb
            have hab : a = pairKey call_to := by simpa using hb
            subst hab
            exact hfresh ha
          have huniv' : ∀ c ∈ calls ++ [call_to],
              c.contract ∈ univC m entry ∧ c.function ∈ univF m entry := by
            intro c hc
            rcases List.mem_append.mp hc with h1 | h2
            · exact huniv c h1
            · have : c = call_to := by simpa using h2
              subst this
              exact htu
          exact ih _ _ _ _ h (fun c hc => hraw c (List.mem_cons_of_mem _ hc))
            hnd' huniv'

theorem calls_length_le (m : Model) (entry : Call) (calls : List Call)
    (hnd : (calls.map pairKey).Nodup)
    (huniv : ∀ c ∈ calls, c.contract ∈ univC m entry ∧
      c.function ∈ univF m entry) :
    calls.length ≤ walkFuel m entry := by
  have h1 : (calls.map pairKey).toFinset.card = (calls.map pairKey).length :=
    List.toFinset_card_of_nodup hnd
  have h2 : (calls.map pairKey).toFinset ⊆
      (univC m entry).toFinset ×ˢ (univF m entry).toFinset := by
    intro p hp
    rw [List.mem_toFinset] at hp
    obtain ⟨c, hc, rfl⟩ := List.mem_map.mp hp
    rw [Finset.mem_product]
    constructor <;> rw [List.mem_toFinset]
    · exact (huniv c hc).1
    · exact (huniv c hc).2
  have h3 := Finset.card_le_card h2
  rw [h1, List.length_map] at h3
  exact h3

theorem walkAux_no_fuel (m : Model) (entry : Call) (ig : List Call) :
    ∀ (fuel i : Nat) (calls nodes : List Call) (edges : List Edge),
      (calls.map pairKey).Nodup →
      (∀ c ∈ calls, c.contract ∈ univC m entry ∧
        c.function ∈ univF m entry) →
      i ≤ calls.length →
      walkFuel m entry - i ≤ fuel →
      walkAux m ig fuel i calls nodes edges ≠ WalkResult.outOfFuel := by
  intro fuel
  induction fuel with
  | zero =>
    intro i calls nodes edges hnd huniv hi hf
    have hlen := calls_length_le m entry calls hnd huniv
    have hnone : calls[i]? = none := List.getElem?_eq_none_iff.mpr (by omega)
    simp [walkAux, hnone]
  | succ fuel ih =>
    intro i calls nodes edges hnd huniv hi hf
    cases hget : calls[i]? with
    | none => simp [walkAux, hget]
    | some callee =>
      have hilt : i < calls.length := by
        by_contra hge
        rw [List.getElem?_eq_none_iff.mpr (by omega)] at hget
        exact Option.noConfusion hget
      unfold walkAux
      rw [hget]
      dsimp only
      by_cases hig : memCall callee ig = true
      · rw [if_pos hig]
        refine ih (i + 1) calls (addNode callee nodes) edges hnd huniv
          (by omega) (by omega)
      · rw [if_neg hig]
        cases hct : dictGet m callee.contract with
        | none => exact fun hcon => WalkResult.noConfusion hcon
        | some ct =>
          dsimp only
          cases hfn : dictGet ct.functions callee.function with
          | none => exact fun hcon => WalkResult.noConfusion hcon
          | some raw =>
            dsimp only
            cases hpc : processCalls m callee raw calls edges with
            | error e => exact fun hcon => WalkResult.noConfusion hcon
            | ok pair =>
              obtain ⟨calls', edges'⟩ := pair
              have hrawF : ∀ c ∈ raw, c.function ∈ univF m entry :=
                fun c hc => raw_mem_univF m entry callee.contract ct
                  callee.function raw c hct hfn hc
              obtain ⟨hnd', huniv'⟩ := processCalls_inv m entry callee raw
                calls edges calls' edges' hpc hrawF hnd huniv
              obtain ⟨ext, hext⟩ :=
                processCalls_extend m callee raw calls edges calls' edges' hpc
              refine ih (i + 1) calls' (addNode callee nodes) edges'
                hnd' huniv' ?_ (by omega)
              rw [hext, List.length_append]
              omega

theorem walkAux_edges_callers (m : Model) (ig : List Call) :
    ∀ (fuel i : Nat) (calls nodes : List Call) (edges : List Edge)
      (nodesR : List Call) (edgesR : List Edge),
      walkAux m ig fuel i calls nodes edges = WalkResult.ok nodesR edgesR →
      (∀ e ∈ edges, memCall e.caller ig = false) →
      ∀ e ∈ edgesR, memCall e.caller ig = false := by
  intro fuel
  induction fuel with
  | zero =>
    intro i calls nodes edges nodesR edgesR h hinv e he
    unfold walkAux at h
    cases hget : calls[i]? with
    | none =>
      rw [hget] at h
      dsimp only at h
      cases h
      exact hinv e he
    | some callee =>
      rw [hget] at h
      exact absurd h (by simp)
  | succ fuel ih =>
    intro i calls nodes edges nodesR edgesR h hinv e he
    unfold walkAux at h
    cases hget : calls[i]? with
    | none =>
      rw [hget] at h
      dsimp only at h
      cases h
      exact hinv e he
    | some callee =>
      rw [hget] at h
      dsimp only at h
      by_cases hig : memCall callee ig = true
      · rw [if_pos hig] at h
        exact ih _ _ _ _ _ _ h hinv e he
      · rw [if_neg hig] at h
        cases hct : dictGet m callee.contract with
        | none => rw [hct] at h; exact absurd h (by simp)
        | some ct =>
          rw [hct] at h
          dsimp only at h
          cases hfn : dictGet ct.functions callee.function with
          | none => rw [hfn] at h; exact absurd h (by simp)
          | some raw =>
            rw [hfn] at h
            dsimp only at h
            cases hpc : processCalls m callee raw calls edges with
            | error e' => rw [hpc] at h; exact absurd h (by simp)
            | ok pair =>
              rw [hpc] at h
              obtain ⟨calls', edges'⟩ := pair
              dsimp only at h
              refine ih _ _ _ _ _ _ h ?_ e he
              intro e' he'
              rcases processCalls_edges m callee raw calls edges calls'
                edges' hpc e' he' with h1 | h2
              · exact hinv e' h1
              · rw [h2]
                simpa using hig

theorem walkAux_keyError_missing_contract (m : Model) (ig : List Call)
    (fuel i : Nat) (calls nodes : List Call) (edges : List Edge)
    (callee : Call) (hget : calls[i]? = some callee)
    (hig : memCall callee ig = false)
    (hct : dictGet m callee.contract = none) :
    walkAux m ig (fuel + 1) i calls nodes edges = WalkResult.keyError := by
  unfold walkAux
  rw [hget]
  dsimp only
  rw [if_neg (by simp [hig]), hct]

theorem walkAux_keyError_missing_function (m : Model) (ig : List Call)
    (fuel i : Nat) (calls nodes : List Call) (edges : List Edge)
    (callee : Call) (ct : Contract) (hget : calls[i]? = some callee)
    (hig : memCall callee ig = false)
    (hct : dictGet m callee.contract = some ct)
    (hfn : dictGet ct.functions callee.function = none) :
    walkAux m ig (fuel + 1) i calls nodes edges = WalkResult.keyError := by
  unfold walkAux
  rw [hget]
  dsimp only
  rw [if_neg (by simp [hig]), hct]
  dsimp only
  rw [hfn]

/-! ## Merge-failure characterization -/

theorem not_okCand_iff (lst : List (List String)) (c : String) :
    ¬ (okCand lst c = true) ↔ ∃ l ∈ lst, c ∈ l.tail := by
  simp [okCand]

theorem c3_mergeF_none_reach :
    ∀ (n : Nat) (lst : List (List String)), sumLen lst ≤ n →
      c3_mergeF n lst = none →
      ∃ lst', MergeReaches lst lst' ∧ mergeStuck lst' := by
  intro n
  induction n with
  | zero =>
    intro lst h0 hnone
    have hall := sumLen_zero_all_empty lst (Nat.le_zero.mp h0)
    unfold c3_mergeF at hnone
    rw [if_pos hall] at hnone
    exact absurd hnone (by simp)
  | succ n ih =>
    intro lst hle hnone
    by_cases hall : lst.all List.isEmpty
    · unfold c3_mergeF at hnone
      rw [if_pos hall] at hnone
      exact absurd hnone (by simp)
    · unfold c3_mergeF at hnone
      rw [if_neg hall] at hnone
      cases hfind : (lst.filterMap List.head?).find? (okCand lst) with
      | none =>
        refine ⟨lst, MergeReaches.refl lst, hall, ?_⟩
        intro c hc
        exact (not_okCand_iff lst c).mp (List.find?_eq_none.mp hfind c hc)
      | some c =>
        rw [hfind] at hnone
        dsimp only at hnone
        cases hrec : c3_mergeF n (mergeRest c lst) with
        | some out => rw [hrec] at hnone; simp at hnone
        | none =>
          have hlt := sumLen_mergeRest_lt c lst
            (find?_head_mem lst (okCand lst) c hfind)
          obtain ⟨lst', hreach, hstuck⟩ :=
            ih (mergeRest c lst) (by omega) hrec
          exact ⟨lst', MergeReaches.step lst lst' c hall hfind hreach, hstuck⟩

theorem c3_merge_none_iff (lst : List (List String)) :
    c3_merge lst = none ↔
      ∃ lst', MergeReaches lst lst' ∧ mergeStuck lst' := by
  constructor
  · intro hnone
    exact c3_mergeF_none_reach (sumLen lst) lst (Nat.le_refl _) hnone
  · rintro ⟨lst', hreach, hstuck⟩
    induction hreach with
    | refl lst₀ =>
      rw [c3_merge_unfold]
      rw [if_neg hstuck.1]
      have hfind : (lst₀.filterMap List.head?).find? (okCand lst₀) = none :=
        List.find?_eq_none.mpr
          (fun c hc => (not_okCand_iff lst₀ c).mpr (hstuck.2 c hc))
      rw [hfind]
    | step lst₀ lst₁ c hne hc hreach ih =>
      rw [c3_merge_unfold]
      rw [if_neg hne, hc]
      dsimp only
      rw [ih hstuck]

/-! ## Claims -/

/-- C1: the claim states that a call resolved through a using-for attachment
yields a target whose parameter count is the original argument count plus
one.  The code does not do this: in the using-for branch the `+1`
`lib_function` and the rebound `search_function` are dead bindings, and the
target `Call` keeps the original function identity (here `f` with 1
parameter, although the library defines `f` with `1 + 1` parameters), after
which expanding the target fails with a `KeyError` because the library's
function map has no entry for the un-adjusted identity. -/
theorem claim_C1 :
    resolveCall usingForModel (Call.mk "A" entryFn "A") sCall =
      Except.ok (some (Call.mk "Lib" (Function.mk "f" 1 "Function") "A")) ∧
    hasFun ufLib (Function.mk "f" (1 + 1) "Function") = true ∧
    walk_call usingForModel 5 (Call.mk "A" entryFn "A") [] =
      WalkResult.keyError :=
  ⟨rfl, rfl, rfl⟩

/-- C2 witness: in the chain C → B → A (each defining `foo`), the
`super.foo()` call recorded against C's `foo` resolves to B — not to C
itself and not to A. -/
theorem claim_C2_witness :
    resolveCall chainModel (Call.mk "C" fooFn "C") superFoo =
      Except.ok (some (Call.mk "B" fooFn "C")) := by
  have h := claim_C2 chainModel (Call.mk "C" fooFn "C") superFoo chainC rfl rfl
  rw [h]
  rfl

/-- C3 witness: `f` is defined in `Base` (whose body calls `this.g()`) and
executes in the context of `Derived`, which overrides `g`; the internal call
resolves to `Derived.g`, the first match in the context's linearization. -/
theorem claim_C3_witness :
    resolveCall contextModel (Call.mk "Base" fFn "Derived") thisG =
      Except.ok (some (Call.mk "Derived" gFn "Derived")) := by
  have h := claim_C3 contextModel (Call.mk "Base" fFn "Derived") thisG
    ctxDerived rfl rfl
  rw [h]
  rfl

/-- C4 counterexample: `D is B`, and `D.entry` calls `B.bar()` directly.  The
resolved target is `Call B bar` with context `"D"` (the callee's context,
unchanged), not `"B"` — refuting the claim that the resolved target Call's
context field equals that ancestor. -/
theorem claim_C4_counterexample :
    resolveCall directModel (Call.mk "D" entryFn "D") callBbar =
      Except.ok (some (Call.mk "B" barFn "D")) ∧
    (Call.mk "B" barFn "D").context ≠ "B" :=
  ⟨rfl, by decide⟩

/-- C4 witness: the direct base call `B.bar()` from `D.entry` resolves to the
first definer `B` in the ancestor's linearization, with context `"D"`. -/
theorem claim_C4_witness :
    resolveCall directModel (Call.mk "D" entryFn "D") callBbar =
      Except.ok (some (Call.mk "B" barFn "D")) :=
  claim_C4 directModel (Call.mk "D" entryFn "D") callBbar dirD dirB "B"
    (by decide) (by decide) rfl (by decide) rfl rfl

/-- C5: whenever the linearization computation succeeds, the resulting list
begins with the contract itself, has no duplicates, and contains exactly the
contract together with its transitive base contracts; in particular a
contract with no declared bases linearizes to the one-element list
containing only itself. -/
theorem claim_C5 :
    (∀ (m : Model) (n : Nat) (c : String) (L : List String),
      c3 m n c = some L →
        L.head? = some c ∧ L.Nodup ∧ ∀ x, x ∈ L ↔ x ∈ transBases m n c) ∧
    (∀ (m : Model) (n : Nat) (c : String) (ct : Contract),
      dictGet m c = some ct → ct.base_contracts = [] →
        c3 m n c = some [c]) :=
  ⟨fun m n c L h => ⟨c3_head m n c L h, c3_nodup m n c L h, c3_mem m n c L h⟩,
    fun m n c ct h1 h2 => c3_no_bases m n c ct h1 h2⟩

/-- C5 witness: on the diamond D → B, C → A the linearization of D is
[D, B, C, A]: it starts with D, has no duplicates, and agrees with the
transitive-base set; the base-less contract A linearizes to [A]. -/
theorem claim_C5_witness :
    c3 diamondModel 4 "D" = some ["D", "B", "C", "A"] ∧
    (["D", "B", "C", "A"] : List String).Nodup ∧
    (("A" : String) ∈ (["D", "B", "C", "A"] : List String) ↔
      "A" ∈ transBases diamondModel 4 "D") ∧
    c3 diamondModel 4 "A" = some ["A"] := by
  refine ⟨rfl, ?_, ?_, ?_⟩
  · exact (claim_C5.1 diamondModel 4 "D" ["D", "B", "C", "A"] rfl).2.1
  · exact (claim_C5.1 diamondModel 4 "D" ["D", "B", "C", "A"] rfl).2.2 "A"
  · exact claim_C5.2 diamondModel 4 "A" dmA rfl rfl

/-- C6: the C3-style merge fails (returns `none`, the embedded `TypeError`)
exactly when the recursion reaches a state where some input list is still
non-empty but no candidate head is absent from the tail of every input list;
and on the contradictory registry (X orders B before C, Y orders C before B,
Z inherits both) the linearization of Z fails, so model construction —
which computes every contract's linearization — fails. -/
theorem claim_C6 :
    (∀ lst, c3_merge lst = none ↔
      ∃ lst', MergeReaches lst lst' ∧ mergeStuck lst') ∧
    c3 conflictModel 5 "Z" = none :=
  ⟨c3_merge_none_iff, rfl⟩

/-- C7: the worklist traversal terminates for every finite contract model,
entry call and ignore list: a resolved call is appended only when no call
with the same (contract, function) pair is already present, so the worklist
is bounded by the finite (contract, function) universe and some finite fuel
(one unit per dequeued call) always suffices — the traversal never runs out
of fuel, even on recursive or mutually recursive call graphs. -/
theorem claim_C7 (m : Model) (entry : Call) (ig : List Call) :
    ∃ fuel, walk_call m fuel entry ig ≠ WalkResult.outOfFuel := by
  refine ⟨walkFuel m entry, ?_⟩
  unfold walk_call
  refine walkAux_no_fuel m entry ig (walkFuel m entry) 0 [entry]
    (addNode entry []) [] ?_ ?_ ?_ ?_
  · simp
  · intro c hc
    have hc' : c = entry := by simpa using hc
    subst hc'
    exact ⟨List.mem_cons_self _ _, List.mem_cons_self _ _⟩
  · simp
  · omega

/-- C8: calls in the caller-supplied ignore set (membership by Call equality
on contract and function, context ignored) are never expanded, so no edge
with an ignored call as caller appears in any edge set; and concretely, with
`A.g` ignored in the chain f → g → h, `g` is still recorded as a node and
still receives the incoming edge from `f`, while `h` is never discovered. -/
theorem claim_C8 :
    (∀ (m : Model) (ig : List Call) (fuel : Nat) (entry : Call)
      (nodes : List Call) (edges : List Edge),
      walk_call m fuel entry ig = WalkResult.ok nodes edges →
      ∀ e ∈ edges, memCall e.caller ig = false) ∧
    walk_call ignoreModel 5 (Call.mk "A" fFn "A") [Call.mk "A" gFn "A"] =
      WalkResult.ok [Call.mk "A" fFn "A", Call.mk "A" gFn "A"]
        [Edge.mk (Call.mk "A" fFn "A") (Call.mk "A" gFn "A")] := by
  constructor
  · intro m ig fuel entry nodes edges h
    unfold walk_call at h
    exact walkAux_edges_callers m ig fuel 0 [entry] (addNode entry []) []
      nodes edges h (fun e he => absurd he (List.not_mem_nil e))
  · rfl

/-- C8 witness: in the concrete run with `A.g` ignored, the unique edge's
caller (`A.f`) is not in the ignore list. -/
theorem claim_C8_witness :
    memCall (Edge.mk (Call.mk "A" fFn "A") (Call.mk "A" gFn "A")).caller
      [Call.mk "A" gFn "A"] = false :=
  claim_C8.1 ignoreModel [Call.mk "A" gFn "A"] 5 (Call.mk "A" fFn "A")
    [Call.mk "A" fFn "A", Call.mk "A" gFn "A"]
    [Edge.mk (Call.mk "A" fFn "A") (Call.mk "A" gFn "A")]
    claim_C8.2 (Edge.mk (Call.mk "A" fFn "A") (Call.mk "A" gFn "A"))
    (List.mem_singleton.mpr rfl)

/-- C9 counterexample: two overloads `f(1 param)` and `f(2 params)` are
unequal under `Function.__eq__`, yet their hash inputs coincide —
`Function.__hash__` hashes `self.name` only, so the hash is not computed
from all three identity fields. -/
theorem claim_C9_counterexample :
    Function.eqSrc (Function.mk "f" 1 "Function")
      (Function.mk "f" 2 "Function") = false ∧
    Function.hashKey (Function.mk "f" 1 "Function") =
      Function.hashKey (Function.mk "f" 2 "Function") :=
  ⟨by decide, rfl⟩

/-- C9 (amended): equality is the genuine composite of (name, parameter
count, kind) — two functions are equal iff all three fields match — but the
hash is computed from the name alone: two functions hash alike exactly when
their names coincide, so unequal overloads sharing a name collide. -/
theorem claim_C9 (f g : Function) :
    (Function.eqSrc f g = true ↔
      f.name = g.name ∧ f.params = g.params ∧ f.type = g.type) ∧
    (Function.hashKey f = Function.hashKey g ↔ f.name = g.name) := by
  constructor
  · simp [Function.eqSrc, and_assoc]
  · exact Iff.rfl

/-- C10: the resolver looks a dequeued call's recorded call list up only in
that call's own contract's function map — if the contract is unmodeled or
does not itself define the function, the traversal stops with the
`KeyError` outcome instead of falling back to the linearization; and
concretely, the command-line entry lookup accepts `Derived foo` by scanning
`Derived`'s linearization (finding `foo` in `Base`), after which the
traversal immediately fails because `Derived`'s own map lacks `foo`. -/
theorem claim_C10 :
    (∀ (m : Model) (ig : List Call) (fuel i : Nat)
      (calls nodes : List Call) (edges : List Edge) (callee : Call),
      calls[i]? = some callee → memCall callee ig = false →
      (dictGet m callee.contract = none ∨
        ∃ ct, dictGet m callee.contract = some ct ∧
          dictGet ct.functions callee.function = none) →
      walkAux m ig (fuel + 1) i calls nodes edges = WalkResult.keyError) ∧
    (entry_functions inheritEntryModel "Derived" "foo" = [(fooFn, "Base")] ∧
      walk_call inheritEntryModel 3 (Call.mk "Derived" fooFn "Derived") [] =
        WalkResult.keyError) := by
  constructor
  · rintro m ig fuel i calls nodes edges callee hget hig (hct | ⟨ct, hct, hfn⟩)
    · exact walkAux_keyError_missing_contract m ig fuel i calls nodes edges
        callee hget hig hct
    · exact walkAux_keyError_missing_function m ig fuel i calls nodes edges
        callee ct hget hig hct hfn
  · exact ⟨rfl, rfl⟩

/-- C10 witness: the first worklist step on the inherited-entry model hits
the missing-function branch and yields the `KeyError` outcome. -/
theorem claim_C10_witness :
    walkAux inheritEntryModel [] 3 0 [Call.mk "Derived" fooFn "Derived"]
      (addNode (Call.mk "Derived" fooFn "Derived") []) [] =
      WalkResult.keyError :=
  claim_C10.1 inheritEntryModel [] 2 0
    [Call.mk "Derived" fooFn "Derived"]
    (addNode (Call.mk "Derived" fooFn "Derived") []) []
    (Call.mk "Derived" fooFn "Derived") rfl rfl
    (Or.inr ⟨ieDerived, rfl, rfl⟩)

end FunctionGraph
